import Mathlib

/- Formal model of the mc906 text-clustering program: kmeans.py (the k-means
engine, its two initializers and the centroid aggregator), parse.py (document
characteristic vectors and the cosine measure) and main.py (vocabulary
trimming). Python floats are modelled as real or rational numbers. A Python
set of distinct document objects is modelled as the set of their positions
(indices) in the fixed data list, kept as a duplicate-free list. The ambient
module-level random generator is modelled as a stream of natural numbers
rand : ℕ → ℕ read at an explicit cursor: drawing one value reads the stream
at the cursor and advances the cursor by one, so the cursor position plays
the role of the hidden global generator state that successive calls share. -/

namespace Parse

/-- Dot product of two equal-length vectors (numpy dot), the sum of the
componentwise products. The source applies conj to one side, the identity on
real vectors. -/
noncomputable def dotl (a b : List ℝ) : ℝ :=
  ((a.zip b).map fun p => p.1 * p.2).sum

/-- Euclidean norm as in Document.distance and Parser.docset:
sqrt(dot(vector, vector.conj())). -/
noncomputable def vnorm (v : List ℝ) : ℝ :=
  Real.sqrt (dotl v v)

/-- Document.distance on the characteristic vectors of two documents:
dot(a, b) / (norm(a) * norm(b)), the cosine measure of the source. -/
noncomputable def distance (a b : List ℝ) : ℝ :=
  dotl a b / (vnorm a * vnorm b)

/-- Float division as the source performs it on vector components, with the
undefined 0.0 / 0.0 case (a NaN in the source, since every component of an
all-zero raw vector is 0) returned as none. The source has no check before
this division. -/
noncomputable def divNaN (a b : ℝ) : Option ℝ :=
  if b = 0 then none else some (a / b)

/-- The raw frequency vector of one document over the vocabulary word list:
float(freq.get(w, 0)) for each vocabulary word w in order. Words are
modelled as natural-number identifiers and the frequency dict as an
association list. -/
noncomputable def raw_vector (freq : List (ℕ × ℕ)) (words : List ℕ) : List ℝ :=
  words.map fun w => (((freq.lookup w).getD 0 : ℕ) : ℝ)

/-- The characteristic vector Parser.docset stores on a document: every raw
component divided by the Euclidean norm of the raw vector, each division
modelled by divNaN. -/
noncomputable def char_vector (freq : List (ℕ × ℕ)) (words : List ℕ) :
    List (Option ℝ) :=
  (raw_vector freq words).map fun f => divNaN f (vnorm (raw_vector freq words))

end Parse

namespace KM

variable {α : Type*}

/-- random.choice over a list, driven by one stream value: value v selects
position v mod length; none on the empty list (IndexError). -/
def randChoice (l : List α) (v : ℕ) : Option α :=
  l.get? (v % l.length)

/-- The drawing phase of random.sample without replacement: j times, draw a
position in the remaining pool, remove the drawn index from the pool and
continue with the next stream value. The pool holds element indices and
stays duplicate-free. -/
def sampleGo (rand : ℕ → ℕ) : ℕ → List ℕ → ℕ → List ℕ × ℕ
  | 0, _, pos => ([], pos)
  | j + 1, pool, pos =>
      let x := pool.getD (rand pos % pool.length) 0
      let r := sampleGo rand j (pool.erase x) (pos + 1)
      (x :: r.1, r.2)

/-- random.sample(data, k) over the element indices 0..n-1: k distinct
indices in draw order. The size check happens before any draw, and failure
(ValueError: sample larger than population, the INSUFFICIENT_DATA case) is
returned as none. -/
def randomSample (n k : ℕ) (rand : ℕ → ℕ) (pos : ℕ) : Option (List ℕ × ℕ) :=
  if k ≤ n then some (sampleGo rand k (List.range n) pos) else none

/-- The value list ml of one ASSIGN step for element x:
metric(c, i) for each current centroid c in order. -/
def distList (metric : α → α → ℚ) (centroids : List α) (x : α) : List ℚ :=
  centroids.map fun c => metric c x

/-- Minimum of a value list as Python min: none on the empty sequence
(ValueError). Python compares the (value, index) pairs of ml
lexicographically, so the first component of min(ml) is the least value. -/
def lmin : List ℚ → Option ℚ
  | [] => none
  | x :: xs =>
      some (match lmin xs with
        | none => x
        | some m => min x m)

/-- The centroid indices tied for the minimal metric value, in index order:
[k for m, k in ml if m == ml_min]. -/
def tiedIndices (metric : α → α → ℚ) (centroids : List α) (x : α) : List ℕ :=
  let ml := distList metric centroids x
  match lmin ml with
  | none => []
  | some m => (List.range ml.length).filter fun ic => decide (ml.getD ic 0 = m)

/-- One element assignment: random.choice over the tied centroid indices,
driven by one stream value. -/
def assignOne (metric : α → α → ℚ) (centroids : List α) (x : α) (v : ℕ) :
    Option ℕ :=
  randChoice (tiedIndices metric centroids x) v

/-- The ASSIGN pass over all of data, one random draw per element in data
order; returns the chosen bin index of each element and the advanced
cursor. none when centroids is empty, where min(ml) raises ValueError. -/
def assignAll (metric : α → α → ℚ) (centroids : List α) (rand : ℕ → ℕ) :
    List α → ℕ → Option (List ℕ × ℕ)
  | [], pos => some ([], pos)
  | x :: xs, pos =>
      match assignOne metric centroids x (rand pos) with
      | none => none
      | some b =>
          match assignAll metric centroids rand xs (pos + 1) with
          | none => none
          | some r => some (b :: r.1, r.2)

/-- The bins an assignment pass builds: bin c is the set of data positions j
whose chosen bin index is c, kept in increasing position order. -/
def binsOf (asg : List ℕ) (k : ℕ) : List (List ℕ) :=
  (List.range k).map fun c =>
    (List.range asg.length).filter fun j => decide (asg.getD j 0 = c)

/-- The elements of data sitting at the positions of one bin. -/
def binElems (data : List α) (bin : List ℕ) : List α :=
  bin.filterMap fun j => data.get? j

/-- calc_centroid: sum(cluster) / len(cluster) on one-dimensional rational
elements. On the empty cluster the division is a ZeroDivisionError (the
EMPTY_AGGREGATE failure), returned as none. -/
def calc_centroid (cluster : List ℚ) : Option ℚ :=
  if cluster.length = 0 then none else some (cluster.sum / cluster.length)

/-- The convergence error of one iteration: the sum over bins of the metric
from each member element to the freshly updated centroid of its bin. -/
def errOf (metric : α → α → ℚ) (data : List α) (bins : List (List ℕ))
    (cents : List α) : ℚ :=
  ((bins.zip cents).map fun p =>
    ((binElems data p.1).map fun d => metric d p.2).sum).sum

/-- How one clustering invocation can end: the initial sample can fail with
k above n, the assignment can fail on an empty centroid list, the update can
fail on an empty bin, or the loop exits through the convergence test with
the final centroids. -/
inductive KOutcome (α : Type u) where
  | insufficientData : KOutcome α
  | valueError : KOutcome α
  | emptyAggregate : KOutcome α
  | result : List α → KOutcome α

/-- Whether an outcome is a normal exit through the convergence test. -/
def KOutcome.isResult {α : Type u} : KOutcome α → Bool
  | .result _ => true
  | _ => false

/-- The assign / update / convergence loop of Kmeans.__init__. The fuel
argument only expresses the unbounded source loop as Lean recursion: none
means the fuel ran out before the loop exited on its own, and the loop body
is a faithful step otherwise. Each iteration assigns every element, rebuilds
the centroid of every bin with avg (the source calls avg on every bin,
empty or not), sums the error against the new centroids and exits when the
error rose by less than 0.0005 over the previous error. The returned cursor
marks how far the random stream was consumed. -/
def kmeansLoop (metric : α → α → ℚ) (avg : List α → Option α) (data : List α)
    (k : ℕ) (rand : ℕ → ℕ) : ℕ → List α → ℚ → ℕ → Option (KOutcome α × ℕ)
  | 0, _, _, _ => none
  | fuel + 1, cents, olderr, pos =>
      match assignAll metric cents rand data pos with
      | none => some (.valueError, pos)
      | some (asg, pos') =>
          match (binsOf asg k).mapM fun b => avg (binElems data b) with
          | none => some (.emptyAggregate, pos')
          | some cents' =>
              let err := errOf metric data (binsOf asg k) cents'
              if err - olderr < 1 / 2000 then some (.result cents', pos')
              else kmeansLoop metric avg data k rand fuel cents' err pos'

/-- Kmeans.__init__ followed by Kmeans.result: sample k initial centroids
from data with the global generator, then run the loop from the sentinel
error -1. The outcome comes with the final cursor of the random stream. -/
def run (metric : α → α → ℚ) (avg : List α → Option α) (data : List α)
    (k : ℕ) (rand : ℕ → ℕ) (pos fuel : ℕ) : Option (KOutcome α × ℕ) :=
  match randomSample data.length k rand pos with
  | none => some (.insufficientData, pos)
  | some r => kmeansLoop metric avg data k rand fuel (binElems data r.1) (-1) r.2

/-- choose_initial: random.sample(data, k) over element indices. The source
ignores its distfunc argument. -/
def choose_initial (n k : ℕ) (rand : ℕ → ℕ) (pos : ℕ) : Option (List ℕ × ℕ) :=
  randomSample n k rand pos

/-- The Python exceptions choose_initial_pp raises. -/
inductive PyErr where
  | nameError : PyErr
  | indexError : PyErr

/-- The distance2 helper of choose_initial_pp. Its body reads the name
calcdist, but the memo table defined in the enclosing function is named
calcdists; calcdist is bound nowhere, so evaluating the body raises
NameError before any metric call or any memo access. (Independently, the
helper is declared with a single tuple parameter yet called with two
positional arguments, a TypeError of its own.) -/
def distance2 (_p : ℕ × ℕ) : Except PyErr ℚ :=
  .error .nameError

/-- choose_initial_pp: the first centroid is random.choice(data); every
further centroid would come from the roulette loop, but the first expression
of that loop evaluates the comprehension condition (x is not c) with the
name c unbound and then calls distance2 (see above), so entering the loop
raises NameError. The loop is entered exactly when the single starting
centroid leaves fewer than k, that is when k is at least 2; on empty data
random.choice raises IndexError first. No size check against k exists. -/
def choose_initial_pp (data : List α) (k : ℕ) (rand : ℕ → ℕ) (pos : ℕ) :
    Except PyErr (List α) :=
  match randChoice data (rand pos) with
  | none => .error .indexError
  | some c0 => if k ≤ 1 then .ok [c0] else .error .nameError

/-- The error value one fixed assignment of positions to bins produces once
the update step rebuilt the centroids (0 in the impossible branch where the
update fails, which a continuing iteration never takes). Auxiliary to the
termination argument: the error of a continuing iteration is a function of
the assignment alone. -/
def errValue (metric : α → α → ℚ) (avg : List α → Option α) (data : List α)
    (k : ℕ) (asg : List ℕ) : ℚ :=
  match (binsOf asg k).mapM fun b => avg (binElems data b) with
  | none => 0
  | some cents' => errOf metric data (binsOf asg k) cents'

/-- Every error value any assignment of the data positions to the k bins can
produce: a finite set, since there are finitely many such assignments.
Auxiliary to the termination argument. -/
def errSet (metric : α → α → ℚ) (avg : List α → Option α) (data : List α)
    (k : ℕ) : Finset ℚ :=
  Finset.image
    (fun f : Fin data.length → Fin k =>
      errValue metric avg data k (List.ofFn fun j => (f j).val))
    Finset.univ

end KM

namespace Main

/-- slice_sorted_words: sort the (word, total count) table by count,
ascending and stable as Python sorted with key itemgetter(1), and keep the
middle part, dropping n entries at each end where
n = int((len(dictio) * (delpercent / 100.0)) / 2), modelled in exact
arithmetic as the floor of len * delpercent / 200. No emptiness check
follows the slice. -/
def slice_sorted_words (dictio : List (ℕ × ℕ)) (delpercent : ℕ) :
    List (ℕ × ℕ) :=
  let n := dictio.length * delpercent / 200
  let s := dictio.mergeSort fun a b => decide (a.2 ≤ b.2)
  (s.drop n).take (s.length - 2 * n)

end Main

namespace Parse

theorem dotl_nil : dotl [] [] = 0 := by
  simp [dotl]

theorem dotl_cons (x y : ℝ) (xs ys : List ℝ) :
    dotl (x :: xs) (y :: ys) = x * y + dotl xs ys := by
  simp [dotl]

theorem dotl_self_nonneg (v : List ℝ) : 0 ≤ dotl v v := by
  induction v with
  | nil => simp [dotl]
  | cons x xs ih =>
      rw [dotl_cons]
      nlinarith [mul_self_nonneg x]

/-- C1: the claim that the default metric satisfies metric(v, v) == 0 is
false on the source: Document.distance is the cosine measure, a similarity,
and on the vector [1] its self-application evaluates to 1, not 0. -/
theorem distance_self_counter :
    distance [(1 : ℝ)] [(1 : ℝ)] = 1 ∧ distance [(1 : ℝ)] [(1 : ℝ)] ≠ 0 := by
  have h1 : dotl [(1 : ℝ)] [(1 : ℝ)] = 1 := by norm_num [dotl]
  have h2 : distance [(1 : ℝ)] [(1 : ℝ)] = 1 := by
    simp [distance, vnorm, h1, Real.sqrt_one]
  exact ⟨h2, by rw [h2]; norm_num⟩

/-- C1 (amended): for every vector v of nonzero norm, the default metric of
the source satisfies metric(v, v) = 1: Document.distance computes the cosine
measure dot(v, v) / (norm(v) * norm(v)), and the square of the Euclidean
norm of v is exactly dot(v, v). -/
theorem distance_self_eq_one (v : List ℝ) (h : dotl v v ≠ 0) :
    distance v v = 1 := by
  have hsq : vnorm v * vnorm v = dotl v v :=
    Real.mul_self_sqrt (dotl_self_nonneg v)
  rw [distance, hsq]
  exact div_self h

/-- C1 witness: the amended self-distance theorem applied to the concrete
vector [2]. -/
theorem distance_self_eq_one_witness :
    dotl [(2 : ℝ)] [(2 : ℝ)] ≠ 0 ∧ distance [(2 : ℝ)] [(2 : ℝ)] = 1 :=
  ⟨by norm_num [dotl], distance_self_eq_one [(2 : ℝ)] (by norm_num [dotl])⟩

/-- C4: a document sharing no word with the vocabulary gets a raw vector of
norm 0, and Parser.docset divides every component by that zero norm with no
check, producing only undefined (NaN) components instead of failing with a
typed ZERO_NORM_VECTOR error. Concrete input: frequency map with word 1
once, vocabulary holding only word 2. -/
theorem char_vector_zero_norm_nan :
    vnorm (raw_vector [(1, 1)] [2]) = 0 ∧
    char_vector [(1, 1)] [2] = [none] := by
  have hraw : raw_vector [(1, 1)] [2] = [0] := by
    simp [raw_vector, List.lookup]
  have hdot : dotl [0] [0] = 0 := by norm_num [dotl]
  have hv : vnorm (raw_vector [(1, 1)] [2]) = 0 := by
    rw [hraw, vnorm, hdot, Real.sqrt_zero]
  refine ⟨hv, ?_⟩
  rw [char_vector, hraw]
  have hv2 : vnorm (raw_vector [(1, 1)] [2]) = vnorm [0] := by rw [hraw]
  rw [hv2] at hv
  simp [hv, divNaN]

end Parse

namespace KM

/-- C7: choose_initial_pp does not return k distinct centroids even when the
data has n ≥ k distinct elements: with data = [5, 7] and k = 2 its selection
loop raises NameError on its first expression, because the comprehension
condition reads the unbound name c and the distance helper reads the unbound
name calcdist. -/
theorem choose_initial_pp_name_error :
    choose_initial_pp [(5 : ℚ), 7] 2 (fun _ => 0) 0 = .error .nameError :=
  rfl

/-- C8: the memoized squared-distance helper of choose_initial_pp never
returns a metric value: its body reads the name calcdist while the memo
table is named calcdists, so its first evaluation raises NameError, and any
invocation whose selection loop runs (here data = [0, 1], k = 2) fails the
same way before the memo is ever populated. -/
theorem distance2_memo_unbound :
    distance2 (0, 1) = .error .nameError ∧
    choose_initial_pp [(0 : ℚ), 1] 2 (fun _ => 0) 0 = .error .nameError :=
  ⟨rfl, rfl⟩

end KM

namespace KM

variable {α : Type*}

theorem lmin_eq_none_iff (l : List ℚ) : lmin l = none ↔ l = [] := by
  cases l <;> simp [lmin]

theorem lmin_mem {l : List ℚ} {m : ℚ} (h : lmin l = some m) : m ∈ l := by
  induction l generalizing m with
  | nil => simp [lmin] at h
  | cons x xs ih =>
      cases hx : lmin xs with
      | none =>
          simp [lmin, hx] at h
          simp [← h]
      | some m2 =>
          simp [lmin, hx] at h
          rcases min_choice x m2 with h2 | h2
          · rw [← h, h2]
            exact List.mem_cons_self _ _
          · rw [← h, h2]
            exact List.mem_cons_of_mem _ (ih hx)

theorem lmin_le {l : List ℚ} {m : ℚ} (h : lmin l = some m) :
    ∀ y ∈ l, m ≤ y := by
  induction l generalizing m with
  | nil => simp [lmin] at h
  | cons x xs ih =>
      intro y hy
      cases hx : lmin xs with
      | none =>
          have hxs : xs = [] := (lmin_eq_none_iff xs).mp hx
          subst hxs
          simp [lmin] at h
          rcases List.mem_cons.mp hy with rfl | hy2
          · rw [h]
          · simp at hy2
      | some m2 =>
          simp [lmin, hx] at h
          rcases List.mem_cons.mp hy with rfl | hy2
          · rw [← h]
            exact min_le_left _ _
          · exact le_trans (by rw [← h]; exact min_le_right x m2) (ih hx y hy2)

theorem randChoice_mem {l : List α} {v : ℕ} {b : α}
    (h : randChoice l v = some b) : b ∈ l :=
  List.get?_mem h

theorem randChoice_isSome {l : List α} (h : l ≠ []) (v : ℕ) :
    ∃ b, randChoice l v = some b := by
  have hl : 0 < l.length := List.length_pos.mpr h
  have hv : v % l.length < l.length := Nat.mod_lt _ hl
  rw [randChoice]
  cases hg : l.get? (v % l.length) with
  | none =>
      rw [List.get?_eq_none] at hg
      omega
  | some b => exact ⟨b, rfl⟩

theorem randChoice_surj {l : List ℕ} {b : ℕ} (h : b ∈ l) :
    ∃ v, randChoice l v = some b := by
  refine ⟨List.indexOf b l, ?_⟩
  have hlt : List.indexOf b l < l.length := List.indexOf_lt_length.mpr h
  rw [randChoice, Nat.mod_eq_of_lt hlt, List.get?_eq_getElem?,
    List.getElem?_eq_getElem hlt, List.getElem_indexOf hlt]

theorem mem_tiedIndices {metric : α → α → ℚ} {centroids : List α} {x : α}
    {m : ℚ} (hm : lmin (distList metric centroids x) = some m) {ic : ℕ} :
    ic ∈ tiedIndices metric centroids x ↔
      ∃ hic : ic < centroids.length, metric (centroids.get ⟨ic, hic⟩) x = m := by
  have hlen : (distList metric centroids x).length = centroids.length := by
    simp [distList]
  constructor
  · intro h
    simp only [tiedIndices, hm, List.mem_filter, List.mem_range,
      decide_eq_true_eq] at h
    obtain ⟨h1, h2⟩ := h
    have hic : ic < centroids.length := by omega
    refine ⟨hic, ?_⟩
    rw [List.getD_eq_getElem _ _ h1] at h2
    simpa [distList, List.getElem_map] using h2
  · rintro ⟨hic, hv⟩
    simp only [tiedIndices, hm, List.mem_filter, List.mem_range,
      decide_eq_true_eq]
    have h1 : ic < (distList metric centroids x).length := by omega
    refine ⟨h1, ?_⟩
    rw [List.getD_eq_getElem _ _ h1]
    simpa [distList, List.getElem_map] using hv

theorem tiedIndices_lt {metric : α → α → ℚ} {centroids : List α} {x : α}
    {ic : ℕ} (h : ic ∈ tiedIndices metric centroids x) :
    ic < centroids.length := by
  cases hm : lmin (distList metric centroids x) with
  | none => simp [tiedIndices, hm] at h
  | some m =>
      obtain ⟨hic, _⟩ := (mem_tiedIndices hm).mp h
      exact hic

theorem tiedIndices_ne_nil {metric : α → α → ℚ} {centroids : List α} {x : α}
    (h : centroids ≠ []) : tiedIndices metric centroids x ≠ [] := by
  have hml : distList metric centroids x ≠ [] := by simp [distList, h]
  cases hm : lmin (distList metric centroids x) with
  | none =>
      rw [lmin_eq_none_iff] at hm
      exact absurd hm hml
  | some m =>
      have hmem := lmin_mem hm
      obtain ⟨i, hi, hv⟩ := List.mem_iff_getElem.mp hmem
      intro hnil
      have hic : i < centroids.length := by
        simpa [distList] using hi
      have : i ∈ tiedIndices metric centroids x := by
        rw [mem_tiedIndices hm]
        refine ⟨hic, ?_⟩
        simpa [distList, List.getElem_map] using hv
      rw [hnil] at this
      simp at this

theorem assignOne_mem {metric : α → α → ℚ} {centroids : List α} {x : α}
    {v b : ℕ} (h : assignOne metric centroids x v = some b) :
    b ∈ tiedIndices metric centroids x :=
  randChoice_mem h

theorem assignOne_lt {metric : α → α → ℚ} {centroids : List α} {x : α}
    {v b : ℕ} (h : assignOne metric centroids x v = some b) :
    b < centroids.length :=
  tiedIndices_lt (assignOne_mem h)

theorem assignOne_isSome (metric : α → α → ℚ) {centroids : List α}
    (h : centroids ≠ []) (x : α) (v : ℕ) :
    ∃ b, assignOne metric centroids x v = some b :=
  randChoice_isSome (tiedIndices_ne_nil h) v

theorem assignAll_spec {metric : α → α → ℚ} {centroids : List α}
    {rand : ℕ → ℕ} :
    ∀ {data : List α} {pos : ℕ} {asg : List ℕ} {pos' : ℕ},
      assignAll metric centroids rand data pos = some (asg, pos') →
      asg.length = data.length ∧ pos' = pos + data.length ∧
        ∀ b ∈ asg, b < centroids.length := by
  intro data
  induction data with
  | nil =>
      intro pos asg pos' h
      simp [assignAll] at h
      obtain ⟨h1, h2⟩ := h
      subst h1
      subst h2
      simp
  | cons x xs ih =>
      intro pos asg pos' h
      rw [assignAll] at h
      cases ho : assignOne metric centroids x (rand pos) with
      | none =>
          rw [ho] at h
          simp at h
      | some b =>
          rw [ho] at h
          cases hr : assignAll metric centroids rand xs (pos + 1) with
          | none =>
              rw [hr] at h
              simp at h
          | some r =>
              rw [hr] at h
              simp at h
              obtain ⟨l1, l2, l3⟩ := ih hr
              obtain ⟨h1, h2⟩ := h
              subst h1
              subst h2
              refine ⟨by simp [l1], by simp; omega, ?_⟩
              intro c hc
              rcases List.mem_cons.mp hc with rfl | hc2
              · exact assignOne_lt ho
              · exact l3 c hc2

theorem assignAll_isSome {metric : α → α → ℚ} {centroids : List α}
    {rand : ℕ → ℕ} (h : centroids ≠ []) :
    ∀ (data : List α) (pos : ℕ),
      ∃ r, assignAll metric centroids rand data pos = some r := by
  intro data
  induction data with
  | nil => exact fun pos => ⟨([], pos), rfl⟩
  | cons x xs ih =>
      intro pos
      obtain ⟨b, hb⟩ := assignOne_isSome metric h x (rand pos)
      obtain ⟨r, hr⟩ := ih (pos + 1)
      exact ⟨(b :: r.1, r.2), by simp [assignAll, hb, hr]⟩

theorem assignAll_nil_centroids {metric : α → α → ℚ} {rand : ℕ → ℕ}
    (x : α) (xs : List α) (pos : ℕ) :
    assignAll metric ([] : List α) rand (x :: xs) pos = none := by
  simp [assignAll, assignOne, tiedIndices, distList, lmin, randChoice]

theorem binsOf_length (asg : List ℕ) (k : ℕ) : (binsOf asg k).length = k := by
  simp [binsOf]

theorem binsOf_getD (asg : List ℕ) {k c : ℕ} (hc : c < k) :
    (binsOf asg k).getD c [] =
      (List.range asg.length).filter fun j => decide (asg.getD j 0 = c) := by
  have hc2 : c < (binsOf asg k).length := by simpa [binsOf_length] using hc
  rw [List.getD_eq_getElem _ _ hc2]
  simp [binsOf, List.getElem_map, List.getElem_range, hc]

theorem mem_binsOf (asg : List ℕ) {k c : ℕ} (hc : c < k) {j : ℕ} :
    j ∈ (binsOf asg k).getD c [] ↔ j < asg.length ∧ asg.getD j 0 = c := by
  rw [binsOf_getD asg hc]
  simp [List.mem_filter, List.mem_range]

theorem mapM_option_length {β : Type*} {γ : Type*} {f : β → Option γ} :
    ∀ {l : List β} {l2 : List γ}, l.mapM f = some l2 → l2.length = l.length := by
  intro l
  induction l with
  | nil =>
      intro l2 h
      rw [List.mapM_nil] at h
      have h2 : l2 = [] := by simpa using h.symm
      simp [h2]
  | cons x xs ih =>
      intro l2 h
      rw [List.mapM_cons] at h
      cases hf : f x with
      | none =>
          rw [hf] at h
          simp at h
      | some y =>
          rw [hf] at h
          cases hm : xs.mapM f with
          | none =>
              rw [hm] at h
              simp at h
          | some ys =>
              rw [hm] at h
              simp at h
              rw [← h]
              simp [ih hm]

end KM

namespace KM

variable {α : Type*}

/-- C5: in every ASSIGN step the element is sent to a centroid whose metric
value against the element is the minimum over all current centroids: the
minimum of ml exists, the tied list holds exactly the indices of minimal
metric value, every possible random choice lands in that tied list, and
every member of the tied list is the choice under some draw (the draw v
selects position v mod length, uniform over the tied list for a uniform
v). -/
theorem assign_min_tie (metric : α → α → ℚ) (centroids : List α) (x : α)
    (h : centroids ≠ []) :
    ∃ m, lmin (distList metric centroids x) = some m ∧
      (∀ ic (hic : ic < centroids.length),
        m ≤ metric (centroids.get ⟨ic, hic⟩) x) ∧
      (∀ ic, ic ∈ tiedIndices metric centroids x ↔
        ∃ hic : ic < centroids.length,
          metric (centroids.get ⟨ic, hic⟩) x = m) ∧
      (∀ v b, assignOne metric centroids x v = some b →
        b ∈ tiedIndices metric centroids x) ∧
      ∀ b ∈ tiedIndices metric centroids x,
        ∃ v, assignOne metric centroids x v = some b := by
  cases hm : lmin (distList metric centroids x) with
  | none =>
      rw [lmin_eq_none_iff] at hm
      have : centroids = [] := by simpa [distList] using hm
      exact absurd this h
  | some m =>
      refine ⟨m, rfl, ?_, ?_, ?_, ?_⟩
      · intro ic hic
        have hmem : metric (centroids.get ⟨ic, hic⟩) x
            ∈ distList metric centroids x := by
          rw [distList]
          exact List.mem_map.mpr ⟨_, List.get_mem _ _ _, rfl⟩
        exact lmin_le hm _ hmem
      · intro ic
        exact mem_tiedIndices hm
      · intro v b hb
        exact assignOne_mem hb
      · intro b hb
        exact randChoice_surj hb

/-- C5 witness: the assignment theorem applied to the centroids [0, 1], the
element 0 and the squared-difference metric. -/
theorem assign_min_tie_witness :
    ([(0 : ℚ), 1] ≠ []) ∧
    (∃ m, lmin (distList (fun a b : ℚ => (a - b) ^ 2) [(0 : ℚ), 1] 0)
        = some m ∧
      (∀ ic (hic : ic < ([(0 : ℚ), 1]).length),
        m ≤ (fun a b : ℚ => (a - b) ^ 2) (([(0 : ℚ), 1]).get ⟨ic, hic⟩) 0) ∧
      (∀ ic, ic ∈ tiedIndices (fun a b : ℚ => (a - b) ^ 2) [(0 : ℚ), 1] 0 ↔
        ∃ hic : ic < ([(0 : ℚ), 1]).length,
          (fun a b : ℚ => (a - b) ^ 2) (([(0 : ℚ), 1]).get ⟨ic, hic⟩) 0 = m) ∧
      (∀ v b,
        assignOne (fun a b : ℚ => (a - b) ^ 2) [(0 : ℚ), 1] 0 v = some b →
        b ∈ tiedIndices (fun a b : ℚ => (a - b) ^ 2) [(0 : ℚ), 1] 0) ∧
      ∀ b ∈ tiedIndices (fun a b : ℚ => (a - b) ^ 2) [(0 : ℚ), 1] 0,
        ∃ v, assignOne (fun a b : ℚ => (a - b) ^ 2) [(0 : ℚ), 1] 0 v
          = some b) :=
  ⟨by simp, assign_min_tie (fun a b => (a - b) ^ 2) [(0 : ℚ), 1] 0 (by simp)⟩

/-- C6: the bins built by one ASSIGN pass form an exact partition of the
data positions: there are exactly as many bins as centroids, every data
position lies in exactly one bin, and every bin member is a data
position (a bin may be empty). -/
theorem assign_partition (metric : α → α → ℚ) (centroids : List α)
    (data : List α) (rand : ℕ → ℕ) (pos : ℕ) (asg : List ℕ) (pos' : ℕ)
    (h : assignAll metric centroids rand data pos = some (asg, pos')) :
    (binsOf asg centroids.length).length = centroids.length ∧
    (∀ j, j < data.length → ∃! c, c < centroids.length ∧
      j ∈ (binsOf asg centroids.length).getD c []) ∧
    ∀ c, c < centroids.length →
      ∀ j ∈ (binsOf asg centroids.length).getD c [], j < data.length := by
  obtain ⟨hlen, _hpos, hlt⟩ := assignAll_spec h
  refine ⟨binsOf_length _ _, ?_, ?_⟩
  · intro j hj
    have hj2 : j < asg.length := by omega
    have hmem : asg.getD j 0 ∈ asg := by
      rw [List.getD_eq_getElem _ _ hj2]
      exact List.getElem_mem hj2
    have hc0 : asg.getD j 0 < centroids.length := hlt _ hmem
    refine ⟨asg.getD j 0, ⟨⟨hc0, (mem_binsOf asg hc0).mpr ⟨hj2, rfl⟩⟩, ?_⟩⟩
    rintro c ⟨hc, hcm⟩
    exact (((mem_binsOf asg hc).mp hcm).2).symm
  · intro c hc j hj
    have := ((mem_binsOf asg hc).mp hj).1
    omega

/-- C6 witness: the partition theorem applied to a completed concrete ASSIGN
pass over the two elements 0 and 1 with centroids [0, 1]. -/
theorem assign_partition_witness :
    assignAll (fun a b : ℚ => (a - b) ^ 2) [(0 : ℚ), 1] (fun _ => 0)
        [(0 : ℚ), 1] 0 = some ([0, 1], 2) ∧
    ((binsOf [0, 1] ([(0 : ℚ), 1]).length).length
        = ([(0 : ℚ), 1]).length ∧
      (∀ j, j < ([(0 : ℚ), 1] : List ℚ).length →
        ∃! c, c < ([(0 : ℚ), 1]).length ∧
          j ∈ (binsOf [0, 1] ([(0 : ℚ), 1]).length).getD c []) ∧
      ∀ c, c < ([(0 : ℚ), 1]).length →
        ∀ j ∈ (binsOf [0, 1] ([(0 : ℚ), 1]).length).getD c [],
          j < ([(0 : ℚ), 1] : List ℚ).length) := by
  have he : assignAll (fun a b : ℚ => (a - b) ^ 2) [(0 : ℚ), 1] (fun _ => 0)
      [(0 : ℚ), 1] 0 = some ([0, 1], 2) := by
    norm_num [assignAll, assignOne, tiedIndices, distList, lmin, min_def,
      List.filter, List.range_succ, randChoice]
  exact ⟨he, assign_partition _ [(0 : ℚ), 1] [(0 : ℚ), 1] _ 0 [0, 1] 2 he⟩

end KM

namespace KM

variable {α : Type*}

theorem sampleGo_succ (rand : ℕ → ℕ) (j : ℕ) (pool : List ℕ) (pos : ℕ) :
    sampleGo rand (j + 1) pool pos =
      (pool.getD (rand pos % pool.length) 0 ::
        (sampleGo rand j
          (pool.erase (pool.getD (rand pos % pool.length) 0)) (pos + 1)).1,
       (sampleGo rand j
          (pool.erase (pool.getD (rand pos % pool.length) 0)) (pos + 1)).2) :=
  rfl

theorem sampleGo_spec (rand : ℕ → ℕ) :
    ∀ (j : ℕ) (pool : List ℕ) (pos : ℕ), j ≤ pool.length → pool.Nodup →
      (sampleGo rand j pool pos).1.length = j ∧
      (sampleGo rand j pool pos).2 = pos + j ∧
      (∀ i ∈ (sampleGo rand j pool pos).1, i ∈ pool) ∧
      (sampleGo rand j pool pos).1.Nodup := by
  intro j
  induction j with
  | zero => simp [sampleGo]
  | succ j ih =>
      intro pool pos hj hnd
      have hpne : pool ≠ [] := by
        intro h
        rw [h] at hj
        simp at hj
      have hplen : 0 < pool.length := List.length_pos.mpr hpne
      have hidx : rand pos % pool.length < pool.length := Nat.mod_lt _ hplen
      have hxmem : pool.getD (rand pos % pool.length) 0 ∈ pool := by
        rw [List.getD_eq_getElem _ _ hidx]
        exact List.getElem_mem hidx
      have herase : (pool.erase (pool.getD (rand pos % pool.length) 0)).length
          = pool.length - 1 := List.length_erase_of_mem hxmem
      have hj2 : j ≤ (pool.erase (pool.getD (rand pos % pool.length) 0)).length := by
        omega
      have hnd2 : (pool.erase (pool.getD (rand pos % pool.length) 0)).Nodup :=
        hnd.erase _
      obtain ⟨l1, l2, l3, l4⟩ := ih _ (pos + 1) hj2 hnd2
      rw [sampleGo_succ]
      refine ⟨by simp only [List.length_cons, l1], by rw [l2]; omega, ?_, ?_⟩
      · intro i hi
        rcases List.mem_cons.mp hi with rfl | hi2
        · exact hxmem
        · exact List.erase_subset _ _ (l3 i hi2)
      · refine List.nodup_cons.mpr ⟨?_, l4⟩
        intro hmem
        exact hnd.not_mem_erase (l3 _ hmem)

theorem randomSample_spec {n k : ℕ} {rand : ℕ → ℕ} {pos : ℕ} {l : List ℕ}
    {pos' : ℕ} (h : randomSample n k rand pos = some (l, pos')) :
    l.length = k ∧ pos' = pos + k ∧ (∀ i ∈ l, i < n) ∧ l.Nodup := by
  rw [randomSample] at h
  by_cases hk : k ≤ n
  · rw [if_pos hk] at h
    have hl : sampleGo rand k (List.range n) pos = (l, pos') := by
      simpa using h
    obtain ⟨s1, s2, s3, s4⟩ :=
      sampleGo_spec rand k (List.range n) pos (by simpa using hk)
        (List.nodup_range n)
    rw [hl] at s1 s2 s3 s4
    exact ⟨s1, s2, fun i hi => List.mem_range.mp (s3 i hi), s4⟩
  · rw [if_neg hk] at h
    simp at h

theorem binElems_length {data : List α} :
    ∀ {l : List ℕ}, (∀ i ∈ l, i < data.length) →
      (binElems data l).length = l.length := by
  intro l
  induction l with
  | nil => intro _; simp [binElems]
  | cons i is ih =>
      intro h
      have hi : i < data.length := h i (by simp)
      have hg : data.get? i = some (data.get ⟨i, hi⟩) := by
        rw [List.get?_eq_getElem?, List.getElem?_eq_getElem hi]
        rfl
      have ih2 := ih fun j hj => h j (by simp [hj])
      rw [binElems] at ih2 ⊢
      rw [List.filterMap_cons, hg]
      simp only [List.length_cons, ih2]

/-- C2: the claim that the engine never hands the aggregator an empty
cluster fails on the source. With two elements, k = 2, the constant-zero
metric (a legitimate degenerate dissimilarity) and all random draws 0, the
initial sample picks both elements as centroids, every element ties on
every centroid, the tie-break sends both elements to bin 0, and the update
step then calls calc_centroid on the empty bin 1: the resulting
ZeroDivisionError (EMPTY_AGGREGATE) propagates out of the engine. -/
theorem run_empty_bin_crash :
    run (fun _ _ => (0 : ℚ)) calc_centroid [(0 : ℚ), 1] 2 (fun _ => 0) 0 1
      = some (.emptyAggregate, 4) ∧
    binsOf [0, 0] 2 = [[0, 1], []] ∧
    calc_centroid (binElems [(0 : ℚ), 1] []) = none := by
  refine ⟨?_, by decide, rfl⟩
  norm_num [run, randomSample, sampleGo, kmeansLoop, assignAll, assignOne,
    tiedIndices, distList, lmin, min_def, randChoice, binsOf, binElems,
    calc_centroid, errOf, List.filter, List.range_succ, List.erase,
    List.mapM, List.mapM.loop]

/-- C3 counterexample: the claim says every run exits through the
convergence test or through a configured iteration cap with a
non-convergence report; on the concrete input below the source loop instead
aborts inside its first UPDATE step with a ZeroDivisionError, an outcome
that is no TERMINATE transition, and the source has no iteration cap or
convergence flag at all. -/
theorem run_crash_without_terminate :
    run (fun _ _ => (0 : ℚ)) calc_centroid [(0 : ℚ), 2] 2 (fun _ => 0) 0 3
      = some (.emptyAggregate, 4) ∧
    (KOutcome.emptyAggregate : KOutcome ℚ).isResult = false := by
  refine ⟨?_, rfl⟩
  norm_num [run, randomSample, sampleGo, kmeansLoop, assignAll, assignOne,
    tiedIndices, distList, lmin, min_def, randChoice, binsOf, binElems,
    calc_centroid, errOf, List.filter, List.range_succ, List.erase,
    List.mapM, List.mapM.loop]

end KM

namespace KM

variable {α : Type*}

theorem errValue_eq {metric : α → α → ℚ} {avg : List α → Option α}
    {data : List α} {k : ℕ} {asg : List ℕ} {cents' : List α}
    (h : ((binsOf asg k).mapM fun b => avg (binElems data b)) = some cents') :
    errValue metric avg data k asg = errOf metric data (binsOf asg k) cents' := by
  rw [errValue, h]

theorem errValue_mem_errSet (metric : α → α → ℚ) (avg : List α → Option α)
    (data : List α) (k : ℕ) {asg : List ℕ} (hlen : asg.length = data.length)
    (hlt : ∀ b ∈ asg, b < k) :
    errValue metric avg data k asg ∈ errSet metric avg data k := by
  rw [errSet, Finset.mem_image]
  have hget : ∀ j : Fin data.length, asg.getD j.val 0 < k := by
    intro j
    have hj : j.val < asg.length := by omega
    apply hlt
    rw [List.getD_eq_getElem _ _ hj]
    exact List.getElem_mem hj
  refine ⟨fun j => ⟨asg.getD j.val 0, hget j⟩, Finset.mem_univ _, ?_⟩
  have hofn : (List.ofFn fun j : Fin data.length =>
      ((⟨asg.getD j.val 0, hget j⟩ : Fin k) : ℕ)) = asg := by
    apply List.ext_getElem
    · simp [hlen]
    · intro i h1 h2
      rw [List.getElem_ofFn]
      exact List.getD_eq_getElem asg 0 h2
  rw [hofn]

theorem kmeansLoop_isSome (metric : α → α → ℚ) (avg : List α → Option α)
    (data : List α) (k : ℕ) (rand : ℕ → ℕ) :
    ∀ (m : ℕ) (cents : List α) (olderr : ℚ) (pos : ℕ),
      cents.length = k →
      ((errSet metric avg data k).filter fun e => olderr < e).card ≤ m →
      (kmeansLoop metric avg data k rand (m + 1) cents olderr pos).isSome
        = true := by
  intro m
  induction m using Nat.strong_induction_on with
  | _ m ih =>
      intro cents olderr pos hk hcard
      rw [kmeansLoop]
      split
      · simp
      · rename_i asg pos1 ha
        split
        · simp
        · rename_i cents' hu
          change (if errOf metric data (binsOf asg k) cents' - olderr < 1 / 2000
              then some (KOutcome.result cents', pos1)
              else kmeansLoop metric avg data k rand m cents'
                (errOf metric data (binsOf asg k) cents') pos1).isSome = true
          split
          · simp
          · rename_i hc
            have humm : ((binsOf asg k).mapM fun b => avg (binElems data b))
                = some cents' := hu
            have hspec := assignAll_spec ha
            have hmemE : errOf metric data (binsOf asg k) cents'
                ∈ errSet metric avg data k := by
              have hin := errValue_mem_errSet metric avg data k hspec.1
                (by
                  intro b hb
                  have := hspec.2.2 b hb
                  omega)
              rwa [errValue_eq humm] at hin
            have holt : olderr < errOf metric data (binsOf asg k) cents' := by
              have h2 := not_lt.mp hc
              linarith
            have hmemf : errOf metric data (binsOf asg k) cents'
                ∈ (errSet metric avg data k).filter fun e => olderr < e :=
              Finset.mem_filter.mpr ⟨hmemE, holt⟩
            have hss : ((errSet metric avg data k).filter fun e =>
                  errOf metric data (binsOf asg k) cents' < e)
                ⊂ (errSet metric avg data k).filter fun e => olderr < e := by
              rw [Finset.ssubset_iff_of_subset]
              · exact ⟨_, hmemf, by simp⟩
              · intro e he
                rw [Finset.mem_filter] at he ⊢
                exact ⟨he.1, lt_trans holt he.2⟩
            have hlt2 : ((errSet metric avg data k).filter fun e =>
                  errOf metric data (binsOf asg k) cents' < e).card
                < ((errSet metric avg data k).filter fun e =>
                  olderr < e).card := Finset.card_lt_card hss
            cases m with
            | zero => omega
            | succ m0 =>
                have hk2 : cents'.length = k := by
                  rw [mapM_option_length humm, binsOf_length]
                exact ih m0 (by omega) cents'
                  (errOf metric data (binsOf asg k) cents') pos1 hk2
                  (by omega)

/-- C3 (amended): for every input the source loop terminates on its own
after finitely many iterations: every run either aborts with a Python error
or exits through the convergence test, within a fuel bound determined by
the input, because a continuing iteration must raise the error by at least
0.0005 while the error ranges over the finite set of values the finitely
many assignments can produce. The source has no configured iteration cap
and no convergence flag; it does not hang, but neither does it ever report
non-convergence. -/
theorem run_total (metric : α → α → ℚ) (avg : List α → Option α)
    (data : List α) (k : ℕ) (rand : ℕ → ℕ) (pos : ℕ) :
    ∃ fuel, (run metric avg data k rand pos fuel).isSome = true := by
  cases hs : randomSample data.length k rand pos with
  | none => exact ⟨1, by simp [run, hs]⟩
  | some r =>
      obtain ⟨idxs, pos1⟩ := r
      refine ⟨((errSet metric avg data k).filter fun e => (-1 : ℚ) < e).card + 1,
        ?_⟩
      rw [run, hs]
      obtain ⟨s1, _s2, s3, _s4⟩ := randomSample_spec hs
      have hblen : (binElems data idxs).length = k := by
        rw [binElems_length s3, s1]
      exact kmeansLoop_isSome metric avg data k rand _ _ _ pos1 hblen (le_refl _)

end KM

namespace KM

variable {α : Type*}

theorem assignAll_none_iff {metric : α → α → ℚ} {centroids : List α}
    {rand : ℕ → ℕ} {data : List α} {pos : ℕ} :
    assignAll metric centroids rand data pos = none ↔
      centroids = [] ∧ data ≠ [] := by
  constructor
  · intro h
    by_cases hc : centroids = []
    · subst hc
      cases data with
      | nil => simp [assignAll] at h
      | cons x xs => exact ⟨rfl, by simp⟩
    · obtain ⟨r, hr⟩ := @assignAll_isSome α metric centroids rand hc data pos
      rw [hr] at h
      simp at h
  · rintro ⟨h1, h2⟩
    subst h1
    cases data with
    | nil => exact absurd rfl h2
    | cons x xs => exact assignAll_nil_centroids x xs pos

theorem randomSample_none_iff {n k : ℕ} {rand : ℕ → ℕ} {pos : ℕ} :
    randomSample n k rand pos = none ↔ n < k := by
  rw [randomSample]
  split
  · rename_i h
    simp
    omega
  · rename_i h
    simp
    omega

theorem kmeansLoop_pos_le (metric : α → α → ℚ) (avg : List α → Option α)
    (data : List α) (k : ℕ) (rand : ℕ → ℕ) :
    ∀ (fuel : ℕ) (cents : List α) (olderr : ℚ) (pos : ℕ) (out : KOutcome α)
      (posF : ℕ),
      kmeansLoop metric avg data k rand fuel cents olderr pos
        = some (out, posF) → pos ≤ posF := by
  intro fuel
  induction fuel with
  | zero =>
      intro cents olderr pos out posF h
      simp [kmeansLoop] at h
  | succ fuel ih =>
      intro cents olderr pos out posF h
      rw [kmeansLoop] at h
      split at h
      · rw [Option.some.injEq, Prod.mk.injEq] at h
        exact le_of_eq h.2
      · rename_i asg pos1 ha
        have hpos1 : pos1 = pos + data.length := (assignAll_spec ha).2.1
        split at h
        · rw [Option.some.injEq, Prod.mk.injEq] at h
          obtain ⟨_, hp⟩ := h
          omega
        · rename_i cents' hu
          change (if errOf metric data (binsOf asg k) cents' - olderr < 1 / 2000
              then some (KOutcome.result cents', pos1)
              else kmeansLoop metric avg data k rand fuel cents'
                (errOf metric data (binsOf asg k) cents') pos1)
              = some (out, posF) at h
          split at h
          · rw [Option.some.injEq, Prod.mk.injEq] at h
            obtain ⟨_, hp⟩ := h
            omega
          · have := ih cents' _ pos1 out posF h
            omega

theorem sampleGo_congr {s t : ℕ → ℕ} :
    ∀ (j : ℕ) (pool : List ℕ) (pos : ℕ),
      (∀ i, pos ≤ i → i < pos + j → s i = t i) →
      sampleGo t j pool pos = sampleGo s j pool pos := by
  intro j
  induction j with
  | zero =>
      intro pool pos _
      rfl
  | succ j ih =>
      intro pool pos hag
      have h0 : t pos = s pos := (hag pos (le_refl _) (by omega)).symm
      rw [sampleGo_succ, sampleGo_succ, h0,
        ih (pool.erase (pool.getD (s pos % pool.length) 0)) (pos + 1)
          fun i h1 h2 => hag i (by omega) (by omega)]

theorem assignAll_congr {metric : α → α → ℚ} {centroids : List α}
    {s t : ℕ → ℕ} :
    ∀ (data : List α) (pos : ℕ),
      (∀ i, pos ≤ i → i < pos + data.length → s i = t i) →
      assignAll metric centroids t data pos
        = assignAll metric centroids s data pos := by
  intro data
  induction data with
  | nil =>
      intro pos _
      rfl
  | cons x xs ih =>
      intro pos hag
      have h0 : t pos = s pos := (hag pos (le_refl _) (by simp)).symm
      simp only [assignAll]
      rw [h0, ih (pos + 1) fun i h1 h2 => hag i (by omega) (by simp; omega)]

theorem kmeansLoop_congr (metric : α → α → ℚ) (avg : List α → Option α)
    (data : List α) (k : ℕ) {s t : ℕ → ℕ} :
    ∀ (fuel : ℕ) (cents : List α) (olderr : ℚ) (pos : ℕ) (out : KOutcome α)
      (posF : ℕ),
      kmeansLoop metric avg data k s fuel cents olderr pos = some (out, posF) →
      (∀ i, pos ≤ i → i < posF → s i = t i) →
      kmeansLoop metric avg data k t fuel cents olderr pos
        = some (out, posF) := by
  intro fuel
  induction fuel with
  | zero =>
      intro cents olderr pos out posF h hst
      simp [kmeansLoop] at h
  | succ fuel ih =>
      intro cents olderr pos out posF h hst
      rw [kmeansLoop] at h ⊢
      split at h
      · rename_i ha
        have hT : assignAll metric cents t data pos = none :=
          assignAll_none_iff.mpr (assignAll_none_iff.mp ha)
        rw [hT]
        exact h
      · rename_i asg pos1 ha
        have hpos1 : pos1 = pos + data.length := (assignAll_spec ha).2.1
        split at h
        · rename_i hu
          rw [Option.some.injEq, Prod.mk.injEq] at h
          obtain ⟨ho, hp⟩ := h
          have hT : assignAll metric cents t data pos = some (asg, pos1) := by
            rw [assignAll_congr data pos fun i h1 h2 => hst i h1 (by omega)]
            exact ha
          rw [hT]
          simp only [hu]
          rw [ho, hp]
        · rename_i cents' hu
          change (if errOf metric data (binsOf asg k) cents' - olderr < 1 / 2000
              then some (KOutcome.result cents', pos1)
              else kmeansLoop metric avg data k s fuel cents'
                (errOf metric data (binsOf asg k) cents') pos1)
              = some (out, posF) at h
          split at h
          · rename_i hc
            rw [Option.some.injEq, Prod.mk.injEq] at h
            obtain ⟨ho, hp⟩ := h
            have hT : assignAll metric cents t data pos = some (asg, pos1) := by
              rw [assignAll_congr data pos fun i h1 h2 => hst i h1 (by omega)]
              exact ha
            rw [hT]
            simp only [hu]
            rw [if_pos hc, ho, hp]
          · rename_i hc
            have hpf : pos1 ≤ posF :=
              kmeansLoop_pos_le metric avg data k s fuel cents' _ pos1 out posF h
            have hT : assignAll metric cents t data pos = some (asg, pos1) := by
              rw [assignAll_congr data pos fun i h1 h2 => hst i h1 (by omega)]
              exact ha
            rw [hT]
            simp only [hu]
            rw [if_neg hc]
            exact ih cents' _ pos1 out posF h fun i h1 h2 => hst i (by omega) h2

/-- C9 (amended): the clustering result is a deterministic function of the
inputs and of the values the run reads from the random stream: a second
stream that agrees with the first on the consumed interval (from the entry
cursor to the returned final cursor) yields the identical outcome and final
cursor. In the source the stream cursor is the hidden state of the ambient
module-level random generator, so reproducibility requires restoring that
ambient state, not merely repeating the inputs. -/
theorem run_deterministic (metric : α → α → ℚ) (avg : List α → Option α)
    (data : List α) (k : ℕ) (s t : ℕ → ℕ) (pos fuel : ℕ) (out : KOutcome α)
    (posF : ℕ)
    (h : run metric avg data k s pos fuel = some (out, posF))
    (hst : ∀ i, pos ≤ i → i < posF → s i = t i) :
    run metric avg data k t pos fuel = some (out, posF) := by
  rw [run] at h ⊢
  cases hqs : randomSample data.length k s pos with
  | none =>
      rw [hqs] at h
      have ht : randomSample data.length k t pos = none :=
        randomSample_none_iff.mpr (randomSample_none_iff.mp hqs)
      rw [ht]
      exact h
  | some r =>
      obtain ⟨idxs, pos1⟩ := r
      rw [hqs] at h
      have h2 : kmeansLoop metric avg data k s fuel (binElems data idxs)
          (-1) pos1 = some (out, posF) := h
      obtain ⟨s1, s2, _s3, _s4⟩ := randomSample_spec hqs
      have hposF : pos1 ≤ posF :=
        kmeansLoop_pos_le metric avg data k s fuel _ _ pos1 out posF h2
      have hqt : randomSample data.length k t pos = some (idxs, pos1) := by
        rw [randomSample] at hqs ⊢
        by_cases hk2 : k ≤ data.length
        · rw [if_pos hk2] at hqs ⊢
          rw [sampleGo_congr k (List.range data.length) pos
            fun i h1 h2 => hst i h1 (by omega)]
          exact hqs
        · rw [if_neg hk2] at hqs
          exact absurd hqs (by simp)
      rw [hqt]
      exact kmeansLoop_congr metric avg data k fuel (binElems data idxs)
        (-1) pos1 out posF h2 fun i h1 h2 => hst i (by omega) h2

/-- C9 counterexample: two invocations of the engine with identical inputs
are not identical in result, because both draw from the one ambient
generator and the second starts where the first stopped, exactly as the
repetition loop of main.py does. With the stream below, the first
invocation returns the centroids [0, 1] and leaves the cursor at 6; the
second invocation, entered at cursor 6, samples the initial centroids in
the opposite order and returns [1, 0]. -/
theorem sequential_runs_differ :
    run (fun a b : ℚ => (a - b) ^ 2) calc_centroid [(0 : ℚ), 1] 2
        (fun n => if n = 6 then 1 else 0) 0 2
      = some (.result [0, 1], 6) ∧
    run (fun a b : ℚ => (a - b) ^ 2) calc_centroid [(0 : ℚ), 1] 2
        (fun n => if n = 6 then 1 else 0) 6 2
      = some (.result [1, 0], 12) ∧
    ([(0 : ℚ), 1] : List ℚ) ≠ [1, 0] := by
  refine ⟨?_, ?_, by norm_num⟩
  · norm_num [run, randomSample, sampleGo, kmeansLoop, assignAll, assignOne,
      tiedIndices, distList, lmin, min_def, randChoice, binsOf, binElems,
      calc_centroid, errOf, List.filter, List.filterMap, List.getD,
      Option.getD, List.range_succ, List.erase, beq_eq_decide, List.mapM,
      List.mapM.loop]
  · norm_num [run, randomSample, sampleGo, kmeansLoop, assignAll, assignOne,
      tiedIndices, distList, lmin, min_def, randChoice, binsOf, binElems,
      calc_centroid, errOf, List.filter, List.filterMap, List.getD,
      Option.getD, List.range_succ, List.erase, beq_eq_decide, List.mapM,
      List.mapM.loop]

/-- C9 witness: the determinism theorem applied to a concrete completed run
and a second stream that matches the first one only on the consumed
interval 0..5 and differs everywhere after it. -/
theorem run_deterministic_witness :
    run (fun a b : ℚ => (a - b) ^ 2) calc_centroid [(0 : ℚ), 1] 2
        (fun _ => 0) 0 2 = some (.result [0, 1], 6) ∧
    run (fun a b : ℚ => (a - b) ^ 2) calc_centroid [(0 : ℚ), 1] 2
        (fun n => if n < 6 then 0 else 99) 0 2 = some (.result [0, 1], 6) := by
  have h1 : run (fun a b : ℚ => (a - b) ^ 2) calc_centroid [(0 : ℚ), 1] 2
      (fun _ => 0) 0 2 = some (.result [0, 1], 6) := by
    norm_num [run, randomSample, sampleGo, kmeansLoop, assignAll, assignOne,
      tiedIndices, distList, lmin, min_def, randChoice, binsOf, binElems,
      calc_centroid, errOf, List.filter, List.filterMap, List.getD,
      Option.getD, List.range_succ, List.erase, beq_eq_decide, List.mapM,
      List.mapM.loop]
  refine ⟨h1, run_deterministic _ _ _ _ _ _ 0 2 _ 6 h1 ?_⟩
  intro i hi1 hi2
  simp [hi2]

end KM

namespace Main

/-- C10: slice_sorted_words keeps exactly the middle of the table sorted by
total count: with n = the floor of len * p / 200 (p / 2 percent of the
distinct features, rounded down) it returns the sorted table with the first
n and the last n entries dropped; the sorted table is a permutation of the
input ordered by ascending count; and for 0 ≤ p < 100 on a non-empty table
the result is never empty, so the trim can never remove every feature and
the EMPTY_VOCABULARY failure cannot arise. -/
theorem slice_sorted_words_spec (dictio : List (ℕ × ℕ)) (p : ℕ)
    (hp : p < 100) (hne : dictio ≠ []) :
    (slice_sorted_words dictio p).length
        = dictio.length - 2 * (dictio.length * p / 200) ∧
    (dictio.mergeSort fun a b => decide (a.2 ≤ b.2)).Perm dictio ∧
    ((dictio.mergeSort fun a b => decide (a.2 ≤ b.2)).Pairwise
      fun a b => a.2 ≤ b.2) ∧
    slice_sorted_words dictio p
        = ((dictio.mergeSort fun a b => decide (a.2 ≤ b.2)).drop
            (dictio.length * p / 200)).take
            (dictio.length - 2 * (dictio.length * p / 200)) ∧
    slice_sorted_words dictio p ≠ [] := by
  have hms : (dictio.mergeSort fun a b => decide (a.2 ≤ b.2)).length
      = dictio.length := List.length_mergeSort _
  have hn : 2 * (dictio.length * p / 200) < dictio.length := by
    have h1 : dictio.length * p / 200 * 200 ≤ dictio.length * p :=
      Nat.div_mul_le_self _ _
    have h2 : dictio.length * p ≤ dictio.length * 99 :=
      Nat.mul_le_mul_left _ (by omega)
    have h3 : 1 ≤ dictio.length := List.length_pos.mpr hne
    omega
  have heq : slice_sorted_words dictio p
      = ((dictio.mergeSort fun a b => decide (a.2 ≤ b.2)).drop
          (dictio.length * p / 200)).take
          (dictio.length - 2 * (dictio.length * p / 200)) := by
    simp only [slice_sorted_words]
    rw [hms]
  have hlen : (slice_sorted_words dictio p).length
      = dictio.length - 2 * (dictio.length * p / 200) := by
    rw [heq, List.length_take, List.length_drop, hms]
    omega
  refine ⟨hlen, List.mergeSort_perm _ _, ?_, heq, ?_⟩
  · have hsorted : (dictio.mergeSort fun a b => decide (a.2 ≤ b.2)).Pairwise
        (fun a b : ℕ × ℕ => decide (a.2 ≤ b.2) = true) :=
      List.sorted_mergeSort
        (by
          intro a b c h1 h2
          simp only [decide_eq_true_eq] at h1 h2 ⊢
          omega)
        (by
          intro a b
          simp only [Bool.or_eq_true, decide_eq_true_eq]
          omega)
        dictio
    exact hsorted.imp (by
      intro a b hb
      simpa using hb)
  · intro hnil
    rw [hnil] at hlen
    simp at hlen
    omega

/-- C10 witness: the trimming theorem applied to a two-entry table with
p = 10, where n = 0 and both entries are kept. -/
theorem slice_sorted_words_spec_witness :
    (10 : ℕ) < 100 ∧ ([((1 : ℕ), (5 : ℕ)), (2, 3)] : List (ℕ × ℕ)) ≠ [] ∧
    (slice_sorted_words [((1 : ℕ), (5 : ℕ)), (2, 3)] 10).length
      = ([((1 : ℕ), (5 : ℕ)), (2, 3)] : List (ℕ × ℕ)).length
        - 2 * (([((1 : ℕ), (5 : ℕ)), (2, 3)] : List (ℕ × ℕ)).length * 10 / 200) ∧
    slice_sorted_words [((1 : ℕ), (5 : ℕ)), (2, 3)] 10 ≠ [] := by
  have h := slice_sorted_words_spec [((1 : ℕ), (5 : ℕ)), (2, 3)] 10
    (by norm_num) (by simp)
  exact ⟨by norm_num, by simp, h.1, h.2.2.2.2⟩

end Main
